import Mathlib

/-!
# Verification of the kayakish hull hydrostatics engine

A shallow embedding, over exact rationals, of the geometric and numeric core
of the repository: 3D points (`src/geometry/point.py`), the parametric curve
abstraction (`src/geometry/spline.py`), transverse profiles and their
waterline clipping and area formulas (`src/geometry/profile.py`), the
tetrahedral end-closure volume (`src/hydrostatics/volume.py`), and the
stability-curve scan (`src/analysis/stability.py`).

Floating-point numbers are modelled by `ℚ`; calls into numeric library
routines (interpolator construction from `scipy`, the `brentq` root finder,
square roots for chord lengths) are modelled by abstract function parameters,
while every piece of control flow and arithmetic written in the repository
itself is translated directly.  Trigonometric values `cos θ`, `sin θ` are
modelled by a pair of rationals `(ca, sa)`; identities such as
`ca ^ 2 + sa ^ 2 = 1` and the parity laws `cos (−θ) = cos θ`,
`sin (−θ) = −sin θ` that hold of the real functions appear as explicit
hypotheses or substitutions in the theorems that need them.
-/

/-- Models `Point3D` (src/geometry/point.py): an x/y/z triple with an
optional level tag.  `x` is longitudinal, `y` transverse, `z` vertical. -/
structure PointQ where
  x : ℚ
  y : ℚ
  z : ℚ
  level : Option String := none
  deriving Repr, DecidableEq

instance : Inhabited PointQ := ⟨⟨0, 0, 0, none⟩⟩

namespace PointQ

/-- Models `Point3D.rotate_x` (src/geometry/point.py lines 82–113): the
rotation matrix about the X axis applied to `(y, z)`; `x` and `level` are
copied through unchanged.  `ca` and `sa` stand for the cosine and sine
values the source computes (`cos(radians(-angle_deg))`,
`sin(radians(-angle_deg))`). -/
def rotate_x (p : PointQ) (ca sa : ℚ) : PointQ :=
  ⟨p.x, p.y * ca - p.z * sa, p.y * sa + p.z * ca, p.level⟩

/-- The coordinate triple of a point (its `coordinates` property). -/
def coords (p : PointQ) : ℚ × ℚ × ℚ := (p.x, p.y, p.z)

end PointQ

/-! ## Stability-curve scan (src/analysis/stability.py) -/

/-- One sample of the stability sweep: the `angle`, `gz` and `moment`
entries of the dicts appended to `stability_points` in
`create_stability_curve_points`. -/
structure StabPoint where
  angle : ℚ
  gz : ℚ
  moment : ℚ
  deriving Repr, DecidableEq

namespace Stability

/-- The linear interpolation of the zero crossing between two samples:
`a1 + (0 - gz1) * (a2 - a1) / (gz2 - gz1)`
(src/analysis/stability.py line 156). -/
def interpVanishing (p q : StabPoint) : ℚ :=
  p.angle + (0 - p.gz) * (q.angle - p.angle) / (q.gz - p.gz)

/-- Whether a consecutive pair of samples is a sign change of GZ from
non-negative to negative (src/analysis/stability.py line 150). -/
def isCrossing (p q : StabPoint) : Bool :=
  q.gz < 0 && p.gz ≥ 0

/-- Models the scan loop of `create_stability_curve_points`
(src/analysis/stability.py lines 145–161): walk the samples from index 1,
stopping (with the interpolated vanishing angle) at the first sign change of
GZ from non-negative to negative, and otherwise updating the running maximum
moment and its angle.  `prev` is `stability_points[i-1]`, the accumulators
start at `0.0`. -/
def scanAux (prev : StabPoint) (maxM maxA : ℚ) :
    List StabPoint → Option ℚ × ℚ × ℚ
  | [] => (none, maxM, maxA)
  | q :: qs =>
    if isCrossing prev q then
      (some (interpVanishing prev q), maxM, maxA)
    else if q.moment > maxM then
      scanAux q q.moment q.angle qs
    else
      scanAux q maxM maxA qs

/-- The vanishing-angle / max-moment scan over the full sample list:
returns `(vanishing_angle, max_moment, max_moment_angle)` as in
`create_stability_curve_points` (src/analysis/stability.py lines 145–172). -/
def scanStability : List StabPoint → Option ℚ × ℚ × ℚ
  | [] => (none, 0, 0)
  | p :: rest => scanAux p 0 0 rest

/-- The consecutive pairs of a sample list, in order. -/
def consecutivePairs (pts : List StabPoint) : List (StabPoint × StabPoint) :=
  pts.zip pts.tail

/-- The samples the running-maximum update actually sees: every sample
after the first, up to but excluding the second sample of the first
GZ sign change from non-negative to negative. -/
def consideredFrom (prev : StabPoint) : List StabPoint → List StabPoint
  | [] => []
  | q :: qs => if isCrossing prev q then [] else q :: consideredFrom q qs

/-- The considered samples starting from the head of the sample list. -/
def considered : List StabPoint → List StabPoint
  | [] => []
  | p :: rest => consideredFrom p rest

end Stability

namespace Stability

theorem scanAux_vanishing (prev : StabPoint) (maxM maxA : ℚ)
    (rest : List StabPoint) :
    (scanAux prev maxM maxA rest).1 =
      ((consecutivePairs (prev :: rest)).find?
        (fun pq => isCrossing pq.1 pq.2)).map
        (fun pq => interpVanishing pq.1 pq.2) := by
  induction rest generalizing prev maxM maxA with
  | nil => simp [scanAux, consecutivePairs]
  | cons q qs ih =>
    by_cases h : isCrossing prev q
    · simp [scanAux, consecutivePairs, h, List.find?]
    · have hpairs :
          consecutivePairs (prev :: q :: qs) =
            (prev, q) :: consecutivePairs (q :: qs) := by
        simp [consecutivePairs]
      by_cases hm : q.moment > maxM
      · simpa [scanAux, h, hm, hpairs, List.find?] using ih q q.moment q.angle
      · simpa [scanAux, h, hm, hpairs, List.find?] using ih q maxM maxA

theorem scanAux_max (prev : StabPoint) (maxM maxA : ℚ)
    (rest : List StabPoint) :
    (scanAux prev maxM maxA rest).2.1 =
        List.foldl (fun acc p => max acc p.moment) maxM
          (consideredFrom prev rest) ∧
      ((scanAux prev maxM maxA rest).2 = (maxM, maxA) ∨
        ∃ p ∈ consideredFrom prev rest,
          p.moment = (scanAux prev maxM maxA rest).2.1 ∧
          p.angle = (scanAux prev maxM maxA rest).2.2) := by
  induction rest generalizing prev maxM maxA with
  | nil => simp [scanAux, consideredFrom]
  | cons q qs ih =>
    by_cases h : isCrossing prev q
    · simp [scanAux, consideredFrom, h]
    · by_cases hm : q.moment > maxM
      · have hmax : max maxM q.moment = q.moment := max_eq_right (le_of_lt hm)
        obtain ⟨ih1, ih2⟩ := ih q q.moment q.angle
        constructor
        · simpa [scanAux, consideredFrom, h, hm, hmax] using ih1
        · rcases ih2 with h2 | ⟨p, hp, hpm, hpa⟩
          · refine Or.inr ⟨q, ?_, ?_, ?_⟩ <;>
              simp [scanAux, consideredFrom, h, hm, h2]
          · refine Or.inr ⟨p, ?_, ?_, ?_⟩ <;>
              simp [scanAux, consideredFrom, h, hm, hp, hpm, hpa]
      · have hmax : max maxM q.moment = maxM :=
          max_eq_left (not_lt.mp hm)
        obtain ⟨ih1, ih2⟩ := ih q maxM maxA
        constructor
        · simpa [scanAux, consideredFrom, h, hm, hmax] using ih1
        · rcases ih2 with h2 | ⟨p, hp, hpm, hpa⟩
          · exact Or.inl (by simpa [scanAux, h, hm] using h2)
          · refine Or.inr ⟨p, ?_, ?_, ?_⟩ <;>
              simp [scanAux, consideredFrom, h, hm, hp, hpm, hpa]

/-- C2.  For every stability sweep, the returned `vanishing_angle` is the
linear interpolation `a1 + (0 - gz1) * (a2 - a1) / (gz2 - gz1)` of the first
consecutive pair of samples whose GZ changes sign from non-negative to
negative, and is `None` when no such consecutive pair exists. -/
theorem vanishing_angle_first_crossing (pts : List StabPoint) :
    (scanStability pts).1 =
      ((consecutivePairs pts).find? (fun pq => isCrossing pq.1 pq.2)).map
        (fun pq => interpVanishing pq.1 pq.2) := by
  cases pts with
  | nil => simp [scanStability, consecutivePairs]
  | cons p rest => simpa using scanAux_vanishing p 0 0 rest

/-- C3, counterexample.  A concrete sample list on which the scan's
`max_moment`/`max_moment_angle` differ from the maximum righting moment over
all computed stability points and its angle: the sample at heel angle 0
(moment 5) and the sample beyond the GZ crossing (moment 10 at angle 9) are
never examined, so the scan reports `(2, 3)` while the true maximum over all
samples is `10` at angle `9`. -/
theorem max_moment_not_global_maximum :
    (scanStability
        [⟨0, 1, 5⟩, ⟨3, 1, 2⟩, ⟨6, -1, -3⟩, ⟨9, 1, 10⟩]).2 = (2, 3) ∧
      ((([⟨0, 1, 5⟩, ⟨3, 1, 2⟩, ⟨6, -1, -3⟩, ⟨9, 1, 10⟩] :
          List StabPoint).map StabPoint.moment).foldl max 5 = 10 ∧
        ((2 : ℚ), (3 : ℚ)) ≠ ((10 : ℚ), (9 : ℚ))) := by
  refine ⟨?_, by norm_num, by norm_num⟩
  norm_num [scanStability, scanAux, isCrossing]

/-- C3, amended.  For every stability sweep, `max_moment` equals the maximum
of `0.0` and the moments of the samples the scan actually examines — the
samples after the first one, up to but excluding the first GZ sign change
from non-negative to negative — and `(max_moment, max_moment_angle)` is
either the initial `(0, 0)` or the moment/angle of one of those examined
samples; the sample at heel angle 0 and the samples at and beyond the
crossing are not considered. -/
theorem max_moment_over_considered (pts : List StabPoint) :
    (scanStability pts).2.1 =
        List.foldl (fun acc p => max acc p.moment) 0 (considered pts) ∧
      ((scanStability pts).2 = (0, 0) ∨
        ∃ p ∈ considered pts,
          p.moment = (scanStability pts).2.1 ∧
          p.angle = (scanStability pts).2.2) := by
  cases pts with
  | nil => simp [scanStability, considered]
  | cons p rest => simpa [scanStability, considered] using scanAux_max p 0 0 rest

end Stability

/-! ## Parametric curves (src/geometry/spline.py) -/

namespace Spline3D

/-- The two parametrizations `Spline3D.build` can settle on
(src/geometry/spline.py lines 55–75). -/
inductive Param where
  | byX : Param
  | byChord : Param
  deriving Repr, DecidableEq

/-- Models `np.diff`: the list of consecutive differences `x[i+1] - x[i]`. -/
def npDiff (xs : List ℚ) : List ℚ :=
  List.zipWith (fun a b => a - b) xs.tail xs

/-- Models `np.all(np.diff(x) > 0) or np.all(np.diff(x) < 0)`
(src/geometry/spline.py line 56). -/
def xMonotonic (xs : List ℚ) : Bool :=
  (npDiff xs).all (fun d => 0 < d) || (npDiff xs).all (fun d => d < 0)

/-- A symbolic description of the 1-D interpolant the source builds for one
coordinate: the identity (`self.sx = lambda t: t`), a `PchipInterpolator`
over given knots and values, or a `CubicSpline` over given knots and
values. -/
inductive Interp1D where
  | ident : Interp1D
  | pchip : List ℚ → List ℚ → Interp1D
  | cubic : List ℚ → List ℚ → Interp1D
  deriving Repr, DecidableEq

/-- The data `Spline3D.build` stores: the chosen parametrization, the
breakpoint array `self.t`, and the three coordinate interpolants. -/
structure BuildResult where
  param : Param
  t : List ℚ
  sx : Interp1D
  sy : Interp1D
  sz : Interp1D
  deriving Repr, DecidableEq

/-- Models `np.concatenate(([0], np.cumsum(dist)))`: 0 then partial sums. -/
def cumsum0 (dist : List ℚ) : List ℚ :=
  dist.scanl (· + ·) 0

/-- The squared length of the segment between consecutive points; the
source takes `sqrt` of this via numpy, which the caller supplies as an
abstract `sqrtQ`. -/
def chordDists (sqrtQ : ℚ → ℚ) (ps : List PointQ) : List ℚ :=
  List.zipWith
    (fun q p =>
      sqrtQ ((q.x - p.x) ^ 2 + (q.y - p.y) ^ 2 + (q.z - p.z) ^ 2))
    ps.tail ps

/-- Models `Spline3D.build` with `parametrization='auto'`
(src/geometry/spline.py lines 49–75): if the x coordinates are strictly
monotonic, parametrize by x and fit `PchipInterpolator`s to y and z (with
the identity for x); otherwise parametrize by cumulative chord length and
fit `CubicSpline`s to all three coordinates. -/
def buildAuto (sqrtQ : ℚ → ℚ) (ps : List PointQ) : BuildResult :=
  let xs := ps.map PointQ.x
  let ys := ps.map PointQ.y
  let zs := ps.map PointQ.z
  if xMonotonic xs then
    ⟨.byX, xs, .ident, .pchip xs ys, .pchip xs zs⟩
  else
    let t := cumsum0 (chordDists sqrtQ ps)
    ⟨.byChord, t, .cubic t xs, .cubic t ys, .cubic t zs⟩

/-- Strict monotonicity of a coordinate list as the specification states
it: every consecutive difference positive, or every one negative. -/
def StrictlyMonotonicSpec (xs : List ℚ) : Prop :=
  List.Chain' (· < ·) xs ∨ List.Chain' (· > ·) xs

instance (xs : List ℚ) : Decidable (StrictlyMonotonicSpec xs) :=
  inferInstanceAs (Decidable (_ ∨ _))

theorem npDiff_all_pos_iff (xs : List ℚ) :
    ((npDiff xs).all (fun d => 0 < d) = true) ↔ List.Chain' (· < ·) xs := by
  induction xs with
  | nil => simp [npDiff]
  | cons a l ih =>
    cases l with
    | nil => simp [npDiff]
    | cons b m =>
      have h : npDiff (a :: b :: m) = (b - a) :: npDiff (b :: m) := by
        simp [npDiff]
      rw [h]
      simp only [List.all_cons, List.chain'_cons, Bool.and_eq_true,
        decide_eq_true_eq]
      constructor
      · rintro ⟨h1, h2⟩
        exact ⟨by linarith, ih.mp h2⟩
      · rintro ⟨h1, h2⟩
        exact ⟨by simpa using sub_pos.mpr h1, ih.mpr h2⟩

theorem npDiff_all_neg_iff (xs : List ℚ) :
    ((npDiff xs).all (fun d => d < 0) = true) ↔ List.Chain' (· > ·) xs := by
  induction xs with
  | nil => simp [npDiff]
  | cons a l ih =>
    cases l with
    | nil => simp [npDiff]
    | cons b m =>
      have h : npDiff (a :: b :: m) = (b - a) :: npDiff (b :: m) := by
        simp [npDiff]
      rw [h]
      simp only [List.all_cons, List.chain'_cons, Bool.and_eq_true,
        decide_eq_true_eq]
      constructor
      · rintro ⟨h1, h2⟩
        exact ⟨by linarith, ih.mp h2⟩
      · rintro ⟨h1, h2⟩
        exact ⟨by simpa using sub_neg.mpr h1, ih.mpr h2⟩

theorem xMonotonic_iff_spec (xs : List ℚ) :
    xMonotonic xs = true ↔ StrictlyMonotonicSpec xs := by
  unfold xMonotonic StrictlyMonotonicSpec
  rw [Bool.or_eq_true, npDiff_all_pos_iff, npDiff_all_neg_iff]

/-- C5.  For every curve built with the default `'auto'` parametrization
from at least 2 points: the build parametrizes directly by the longitudinal
coordinate, with the transverse and vertical coordinates fitted by
shape-preserving (PCHIP) interpolation, exactly when the longitudinal
coordinates are strictly monotonic (all consecutive differences positive,
or all negative); otherwise all three coordinates are cubic-splined against
the cumulative chord length parameter. -/
theorem buildAuto_parametrization (sqrtQ : ℚ → ℚ) (ps : List PointQ)
    (hlen : 2 ≤ ps.length) :
    ((buildAuto sqrtQ ps).param = .byX ↔
        StrictlyMonotonicSpec (ps.map PointQ.x)) ∧
      (StrictlyMonotonicSpec (ps.map PointQ.x) →
        buildAuto sqrtQ ps =
          ⟨.byX, ps.map PointQ.x, .ident,
            .pchip (ps.map PointQ.x) (ps.map PointQ.y),
            .pchip (ps.map PointQ.x) (ps.map PointQ.z)⟩) ∧
      (¬ StrictlyMonotonicSpec (ps.map PointQ.x) →
        buildAuto sqrtQ ps =
          ⟨.byChord, cumsum0 (chordDists sqrtQ ps),
            .cubic (cumsum0 (chordDists sqrtQ ps)) (ps.map PointQ.x),
            .cubic (cumsum0 (chordDists sqrtQ ps)) (ps.map PointQ.y),
            .cubic (cumsum0 (chordDists sqrtQ ps)) (ps.map PointQ.z)⟩) := by
  by_cases h : xMonotonic (ps.map PointQ.x) = true
  · have hs := (xMonotonic_iff_spec _).mp h
    refine ⟨by simp [buildAuto, h, hs], fun _ => by simp [buildAuto, h],
      fun hc => absurd hs hc⟩
  · have hs : ¬ StrictlyMonotonicSpec (ps.map PointQ.x) := fun hc =>
      h ((xMonotonic_iff_spec _).mpr hc)
    refine ⟨?_, fun hc => absurd hc hs, fun _ => by simp [buildAuto, h]⟩
    simp [buildAuto, h, hs]

/-- Closed witness for `buildAuto_parametrization`: the three points
`(0,0,0), (1,1,0), (2,0,1)` have strictly increasing x, so the auto build
parametrizes by x with PCHIP interpolants for y and z. -/
theorem buildAuto_parametrization_witness :
    (buildAuto (fun q => q) [⟨0, 0, 0, none⟩, ⟨1, 1, 0, none⟩,
        ⟨2, 0, 1, none⟩]).param = Param.byX := by
  have h := buildAuto_parametrization (fun q => q)
    [⟨0, 0, 0, none⟩, ⟨1, 1, 0, none⟩, ⟨2, 0, 1, none⟩] (by decide)
  exact h.1.mpr (Or.inl (by norm_num [List.chain'_cons]))

/-- The evaluator state `Spline3D.build` leaves behind, with the scipy
interpolants abstracted as rational functions: the chosen parametrization,
the control points `self.points`, the breakpoint array `self.t`, and the
three coordinate interpolants `self.sx`, `self.sy`, `self.sz` (for the
x-parametrized case `sx` is the identity and is never consulted by
`eval_x`). -/
structure SplineEval where
  param : Param
  points : List PointQ
  t : List ℚ
  sx : ℚ → ℚ
  sy : ℚ → ℚ
  sz : ℚ → ℚ

/-- Models `Spline3D.eval_t` (src/geometry/spline.py lines 80–84). -/
def eval_t (s : SplineEval) (tv : ℚ) : PointQ :=
  match s.param with
  | .byX => ⟨tv, s.sy tv, s.sz tv, none⟩
  | .byChord => ⟨s.sx tv, s.sy tv, s.sz tv, none⟩

/-- Models `Spline3D.eval_x` (src/geometry/spline.py lines 89–111).  For an
x-parametrized curve the requested coordinate is compared against the ends
`self.t[0]`, `self.t[-1]` of the breakpoint array; for a chord-parametrized
curve against `sx(t_min)`, `sx(t_max)`; out of range raises `ValueError`
(modelled by `Except.error`).  The in-range chord case hands the root
search `brentq(f, t_min, t_max)` to the abstract `root` parameter. -/
def eval_x (root : (ℚ → ℚ) → ℚ → ℚ → ℚ) (s : SplineEval) (xObj : ℚ) :
    Except String PointQ :=
  match s.param with
  | .byX =>
    let xmin := s.t.headD 0
    let xmax := s.t.getLastD 0
    if min xmin xmax ≤ xObj ∧ xObj ≤ max xmin xmax then
      Except.ok ⟨xObj, s.sy xObj, s.sz xObj, none⟩
    else Except.error "Requested x is outside the curve range"
  | .byChord =>
    let tmin := s.t.headD 0
    let tmax := s.t.getLastD 0
    let xmin := s.sx tmin
    let xmax := s.sx tmax
    if min xmin xmax ≤ xObj ∧ xObj ≤ max xmin xmax then
      let tstar := root (fun tau => s.sx tau - xObj) tmin tmax
      Except.ok (eval_t s tstar)
    else Except.error "Requested x is outside the curve range"

/-- Whether an `Except` result is a success (no exception raised). -/
def exceptOk {ε α : Type} : Except ε α → Bool
  | .ok _ => true
  | .error _ => false

/-- The minimum of a list of rationals (0 for the empty list). -/
def listMin : List ℚ → ℚ
  | [] => 0
  | a :: l => l.foldl min a

/-- The maximum of a list of rationals (0 for the empty list). -/
def listMax : List ℚ → ℚ
  | [] => 0
  | a :: l => l.foldl max a

/-- The curve's longitudinal span as the specification states it: for an
x-parametrized curve, the min/max of the parametrization breakpoints; for a
chord-parametrized curve, the range spanned by the two endpoints'
longitudinal coordinates. -/
def spanLo (s : SplineEval) : ℚ :=
  match s.param with
  | .byX => listMin s.t
  | .byChord => min (s.points.headD default).x (s.points.getLastD default).x

/-- Upper end of the curve's longitudinal span (see `spanLo`). -/
def spanHi (s : SplineEval) : ℚ :=
  match s.param with
  | .byX => listMax s.t
  | .byChord => max (s.points.headD default).x (s.points.getLastD default).x

theorem foldl_min_chainLE (a : ℚ) (l : List ℚ)
    (h : List.Chain' (· ≤ ·) (a :: l)) : List.foldl min a l = a := by
  induction l generalizing a with
  | nil => rfl
  | cons x xs ih =>
    obtain ⟨hax, h2⟩ := List.chain'_cons.mp h
    rw [List.foldl_cons, min_eq_left hax]
    apply ih
    cases xs with
    | nil => simp
    | cons y ys =>
      obtain ⟨hxy, h3⟩ := List.chain'_cons.mp h2
      exact List.chain'_cons.mpr ⟨hax.trans hxy, h3⟩

theorem foldl_max_chainLE (a : ℚ) (l : List ℚ)
    (h : List.Chain' (· ≤ ·) (a :: l)) : List.foldl max a l = l.getLastD a := by
  induction l generalizing a with
  | nil => rfl
  | cons x xs ih =>
    obtain ⟨hax, h2⟩ := List.chain'_cons.mp h
    rw [List.foldl_cons, max_eq_right hax, ih x h2, List.getLastD_cons]

theorem foldl_max_chainGE (a : ℚ) (l : List ℚ)
    (h : List.Chain' (· ≥ ·) (a :: l)) : List.foldl max a l = a := by
  induction l generalizing a with
  | nil => rfl
  | cons x xs ih =>
    obtain ⟨hax, h2⟩ := List.chain'_cons.mp h
    rw [List.foldl_cons, max_eq_left hax]
    apply ih
    cases xs with
    | nil => simp
    | cons y ys =>
      obtain ⟨hxy, h3⟩ := List.chain'_cons.mp h2
      exact List.chain'_cons.mpr ⟨le_trans hxy hax, h3⟩

theorem foldl_min_chainGE (a : ℚ) (l : List ℚ)
    (h : List.Chain' (· ≥ ·) (a :: l)) : List.foldl min a l = l.getLastD a := by
  induction l generalizing a with
  | nil => rfl
  | cons x xs ih =>
    obtain ⟨hax, h2⟩ := List.chain'_cons.mp h
    rw [List.foldl_cons, min_eq_right hax, ih x h2, List.getLastD_cons]

theorem chainLT_ends (t : List ℚ) (hne : t ≠ [])
    (h : List.Chain' (· < ·) t) :
    listMin t = t.headD 0 ∧ listMax t = t.getLastD 0 := by
  cases t with
  | nil => exact absurd rfl hne
  | cons a l =>
    have hle : List.Chain' (· ≤ ·) (a :: l) := h.imp (fun _ _ => le_of_lt)
    constructor
    · exact foldl_min_chainLE a l hle
    · show List.foldl max a l = (a :: l).getLastD 0
      rw [List.getLastD_cons]
      exact foldl_max_chainLE a l hle

theorem chainGT_ends (t : List ℚ) (hne : t ≠ [])
    (h : List.Chain' (· > ·) t) :
    listMin t = t.getLastD 0 ∧ listMax t = t.headD 0 := by
  cases t with
  | nil => exact absurd rfl hne
  | cons a l =>
    have hge : List.Chain' (· ≥ ·) (a :: l) := h.imp (fun _ _ => le_of_lt)
    constructor
    · show List.foldl min a l = (a :: l).getLastD 0
      rw [List.getLastD_cons]
      exact foldl_min_chainGE a l hge
    · exact foldl_max_chainGE a l hge

theorem le_foldl_max (a : ℚ) (l : List ℚ) : a ≤ List.foldl max a l := by
  induction l generalizing a with
  | nil => exact le_refl a
  | cons x xs ih => exact le_trans (le_max_left a x) (ih (max a x))

theorem foldl_min_le (a : ℚ) (l : List ℚ) : List.foldl min a l ≤ a := by
  induction l generalizing a with
  | nil => exact le_refl a
  | cons x xs ih => exact le_trans (ih (min a x)) (min_le_left a x)

theorem listMin_le_listMax (t : List ℚ) : listMin t ≤ listMax t := by
  cases t with
  | nil => exact le_refl 0
  | cons a l =>
    exact le_trans (foldl_min_le a l) (le_foldl_max a l)

theorem ends_min_max (t : List ℚ) (hne : t ≠ [])
    (h : List.Chain' (· < ·) t ∨ List.Chain' (· > ·) t) :
    min (t.headD 0) (t.getLastD 0) = listMin t ∧
      max (t.headD 0) (t.getLastD 0) = listMax t := by
  have hle : listMin t ≤ listMax t := listMin_le_listMax t
  rcases h with hlt | hgt
  · obtain ⟨h1, h2⟩ := chainLT_ends t hne hlt
    rw [← h1, ← h2]
    exact ⟨min_eq_left hle, max_eq_right hle⟩
  · obtain ⟨h1, h2⟩ := chainGT_ends t hne hgt
    rw [← h1, ← h2]
    exact ⟨min_eq_right hle, max_eq_left hle⟩

/-- C6.  For every curve and requested longitudinal coordinate `x`,
`eval_x` raises the out-of-range `ValueError` exactly when `x` lies outside
the curve's longitudinal span — for an x-parametrized curve, the
`[min, max]` range of the parametrization breakpoints (strictly monotonic
by the curve invariant, stated as `hmono`); for a chord-parametrized curve,
the range between the two endpoints' longitudinal coordinates (the spline
`sx` interpolates its knots, so `sx(t_min)`/`sx(t_max)` are the endpoints'
x coordinates, stated as the interpolation hypotheses `h0`, `hN`) — and
for `x` inside the span it returns a point without raising. -/
theorem eval_x_ok_iff_in_span (root : (ℚ → ℚ) → ℚ → ℚ → ℚ)
    (s : SplineEval) (xObj : ℚ)
    (ht : s.t ≠ [])
    (hmono : s.param = .byX →
      List.Chain' (· < ·) s.t ∨ List.Chain' (· > ·) s.t)
    (h0 : s.param = .byChord →
      s.sx (s.t.headD 0) = (s.points.headD default).x)
    (hN : s.param = .byChord →
      s.sx (s.t.getLastD 0) = (s.points.getLastD default).x) :
    exceptOk (eval_x root s xObj) = true ↔
      spanLo s ≤ xObj ∧ xObj ≤ spanHi s := by
  cases hp : s.param with
  | byX =>
    obtain ⟨hmin, hmax⟩ := ends_min_max s.t ht (hmono hp)
    have hlo : spanLo s = min (s.t.headD 0) (s.t.getLastD 0) := by
      rw [spanLo, hp, hmin]
    have hhi : spanHi s = max (s.t.headD 0) (s.t.getLastD 0) := by
      rw [spanHi, hp, hmax]
    rw [hlo, hhi, eval_x]
    rw [hp]
    by_cases hin : min (s.t.headD 0) (s.t.getLastD 0) ≤ xObj ∧
        xObj ≤ max (s.t.headD 0) (s.t.getLastD 0)
    · rw [if_pos hin]
      exact iff_of_true rfl hin
    · rw [if_neg hin]
      exact iff_of_false (by simp [exceptOk]) hin
  | byChord =>
    have hlo : spanLo s =
        min (s.sx (s.t.headD 0)) (s.sx (s.t.getLastD 0)) := by
      rw [spanLo, hp, h0 hp, hN hp]
    have hhi : spanHi s =
        max (s.sx (s.t.headD 0)) (s.sx (s.t.getLastD 0)) := by
      rw [spanHi, hp, h0 hp, hN hp]
    rw [hlo, hhi, eval_x]
    rw [hp]
    by_cases hin : min (s.sx (s.t.headD 0)) (s.sx (s.t.getLastD 0)) ≤ xObj ∧
        xObj ≤ max (s.sx (s.t.headD 0)) (s.sx (s.t.getLastD 0))
    · rw [if_pos hin]
      exact iff_of_true rfl hin
    · rw [if_neg hin]
      exact iff_of_false (by simp [exceptOk]) hin

/-- Closed witness for `eval_x_ok_iff_in_span`: a concrete x-parametrized
curve over breakpoints `[0, 1, 2]` evaluates successfully at `x = 1`, which
lies inside the breakpoint range. -/
theorem eval_x_ok_iff_in_span_witness :
    exceptOk (eval_x (fun _ a _ => a)
      ⟨Param.byX, [⟨0, 0, 0, none⟩, ⟨2, 0, 0, none⟩], [0, 1, 2],
        fun q => q, fun _ => 0, fun _ => 0⟩ 1) = true := by
  apply (eval_x_ok_iff_in_span (fun _ a _ => a) _ 1 (by simp)
    (fun _ => Or.inl (by norm_num [List.chain'_cons]))
    (fun hc => by simp at hc) (fun hc => by simp at hc)).mpr
  constructor
  · show listMin [(0 : ℚ), 1, 2] ≤ 1
    norm_num [listMin]
  · show (1 : ℚ) ≤ listMax [(0 : ℚ), 1, 2]
    norm_num [listMax]

end Spline3D

/-! ## Profiles and waterline clipping (src/geometry/profile.py) -/

namespace Profile

/-- Stable insertion into a y-sorted list: the new point goes after every
point whose transverse coordinate is not greater than its own. -/
def insertY (p : PointQ) : List PointQ → List PointQ
  | [] => [p]
  | q :: qs => if p.y < q.y then p :: q :: qs else q :: insertY p qs

/-- Models `sorted(self.points, key=lambda p: p.y)` (Python's sort is
stable): a stable sort on the transverse coordinate. -/
def sortByY (ps : List PointQ) : List PointQ :=
  ps.foldl (fun acc p => insertY p acc) []

/-- Whether the edge from `p1` to `p2` strictly crosses the waterline
(src/geometry/profile.py line 266). -/
def crossesWaterline (w : ℚ) (p1 p2 : PointQ) : Prop :=
  (p1.z < w ∧ w < p2.z) ∨ (p2.z < w ∧ w < p1.z)

instance (w : ℚ) (p1 p2 : PointQ) : Decidable (crossesWaterline w p1 p2) :=
  inferInstanceAs (Decidable (_ ∨ _))

/-- The linearly interpolated waterline intersection of an edge
(src/geometry/profile.py lines 268–270):
`t = (waterline_z - p1.z) / (p2.z - p1.z)`,
`y = p1.y + t * (p2.y - p1.y)`, at height exactly `waterline_z`. -/
def interPoint (station w : ℚ) (p1 p2 : PointQ) : PointQ :=
  ⟨station, p1.y + (w - p1.z) / (p2.z - p1.z) * (p2.y - p1.y), w, none⟩

/-- The contribution of one consecutive pair of the y-sorted walk in
`Profile._get_submerged_polygon` (src/geometry/profile.py lines 257–270):
keep `p1` when it is at or below the waterline, then insert the
interpolated intersection when the edge strictly crosses the waterline. -/
def submergedSegment (station w : ℚ) (p1 p2 : PointQ) : List PointQ :=
  (if p1.z ≤ w then [p1] else []) ++
    (if crossesWaterline w p1 p2 then [interPoint station w p1 p2] else [])

/-- The walk over the y-sorted point list in
`Profile._get_submerged_polygon`: each consecutive pair contributes its
segment, and the final point is kept when at or below the waterline
(src/geometry/profile.py lines 257–274). -/
def walkPairs (station w : ℚ) : List PointQ → List PointQ
  | [] => []
  | [p] => if p.z ≤ w then [p] else []
  | p1 :: p2 :: rest =>
    submergedSegment station w p1 p2 ++ walkPairs station w (p2 :: rest)

/-- Models `Profile._get_submerged_polygon`
(src/geometry/profile.py lines 241–276): sort the profile points by the
transverse coordinate and walk consecutive pairs, keeping submerged points
and inserting interpolated waterline crossings. -/
def getSubmergedPolygon (station w : ℚ) (ps : List PointQ) : List PointQ :=
  walkPairs station w (sortByY ps)

/-- Absolute value as the source's `np.abs` computes it, kept executable. -/
def ratAbs (q : ℚ) : ℚ := if q < 0 then -q else q

/-- Models `np.roll(l, -1)`: every entry shifted one place left, cyclically. -/
def rollLeft (l : List ℚ) : List ℚ :=
  match l with
  | [] => []
  | a :: t => t ++ [a]

/-- Models `np.roll(l, 1)`: every entry shifted one place right, cyclically. -/
def rollRight (l : List ℚ) : List ℚ :=
  match l with
  | [] => []
  | a :: t => (a :: t).getLastD 0 :: (a :: t).dropLast

/-- The cyclic shoelace sum
`np.sum(y_coords * (np.roll(z_coords, -1) - np.roll(z_coords, 1)))`
(src/geometry/profile.py line 195). -/
def shoelaceSum (sub : List PointQ) : ℚ :=
  let ys := sub.map PointQ.y
  let zs := sub.map PointQ.z
  (List.zipWith (fun y dz => y * dz) ys
    (List.zipWith (fun a b => a - b) (rollLeft zs) (rollRight zs))).foldl
      (· + ·) 0

/-- Models `Profile.calculate_area_below_waterline`
(src/geometry/profile.py lines 171–197): clip to the submerged polygon,
return 0 when fewer than 3 points remain, and otherwise half the absolute
cyclic shoelace sum. -/
def calculate_area_below_waterline (station w : ℚ) (ps : List PointQ) : ℚ :=
  let sub := getSubmergedPolygon station w ps
  if sub.length < 3 then 0 else ratAbs (shoelaceSum sub) / 2

/-- Modelled from the spec: `Profile.wetted_perimeter` is declared in §4.2
and exercised by `test/unit/test_profile_new.py`, but its implementation is
not among the sources; per §4.2 degenerate inputs (fewer than 3 points)
return zero rather than failing, and otherwise the submerged boundary
length is summed (segment lengths via the abstract square root `sqrtQ`). -/
def wetted_perimeter (sqrtQ : ℚ → ℚ) (station w : ℚ)
    (ps : List PointQ) : ℚ :=
  if ps.length < 3 then 0
  else
    let sub := getSubmergedPolygon station w ps
    (List.zipWith
      (fun q p => sqrtQ ((q.y - p.y) ^ 2 + (q.z - p.z) ^ 2))
      sub.tail sub).foldl (· + ·) 0

theorem mem_insertY {x p : PointQ} {l : List PointQ} :
    x ∈ insertY p l ↔ x = p ∨ x ∈ l := by
  induction l with
  | nil => simp [insertY]
  | cons q qs ih =>
    by_cases h : p.y < q.y
    · simp [insertY, h]
    · simp [insertY, h, ih]
      tauto

theorem insertY_perm (p : PointQ) (l : List PointQ) :
    (insertY p l).Perm (p :: l) := by
  induction l with
  | nil => exact List.Perm.refl _
  | cons q qs ih =>
    by_cases h : p.y < q.y
    · have heq : insertY p (q :: qs) = p :: q :: qs := by simp [insertY, h]
      rw [heq]
    · have heq : insertY p (q :: qs) = q :: insertY p qs := by
        simp [insertY, h]
      rw [heq]
      exact (ih.cons q).trans (List.Perm.swap p q qs)

theorem sortByY_aux_perm (ps : List PointQ) (acc : List PointQ) :
    (ps.foldl (fun acc p => insertY p acc) acc).Perm (acc ++ ps) := by
  induction ps generalizing acc with
  | nil => simpa using List.Perm.refl acc
  | cons p ps ih =>
    rw [List.foldl_cons]
    exact (ih (insertY p acc)).trans
      (((insertY_perm p acc).append_right ps).trans List.perm_middle.symm)

theorem sortByY_perm (ps : List PointQ) : (sortByY ps).Perm ps := by
  simpa [sortByY] using sortByY_aux_perm ps []

theorem insertY_pairwise (p : PointQ) (l : List PointQ)
    (h : l.Pairwise (fun a b => a.y ≤ b.y)) :
    (insertY p l).Pairwise (fun a b => a.y ≤ b.y) := by
  induction l with
  | nil => simp [insertY]
  | cons q qs ih =>
    obtain ⟨hq, hqs⟩ := List.pairwise_cons.mp h
    by_cases hpq : p.y < q.y
    · have heq : insertY p (q :: qs) = p :: q :: qs := by simp [insertY, hpq]
      rw [heq]
      refine List.pairwise_cons.mpr ⟨?_, h⟩
      intro b hb
      rcases List.mem_cons.mp hb with rfl | hb
      · exact le_of_lt hpq
      · exact le_trans (le_of_lt hpq) (hq b hb)
    · have heq : insertY p (q :: qs) = q :: insertY p qs := by
        simp [insertY, hpq]
      rw [heq]
      refine List.pairwise_cons.mpr ⟨?_, ih hqs⟩
      intro b hb
      rcases mem_insertY.mp hb with rfl | hb
      · exact le_of_not_lt hpq
      · exact hq b hb

theorem sortByY_aux_pairwise (ps : List PointQ) (acc : List PointQ)
    (h : acc.Pairwise (fun a b => a.y ≤ b.y)) :
    (ps.foldl (fun acc p => insertY p acc) acc).Pairwise
      (fun a b => a.y ≤ b.y) := by
  induction ps generalizing acc with
  | nil => simpa
  | cons p ps ih =>
    simpa using ih (insertY p acc) (insertY_pairwise p acc h)

theorem sortByY_pairwise (ps : List PointQ) :
    (sortByY ps).Pairwise (fun a b => a.y ≤ b.y) :=
  sortByY_aux_pairwise ps [] (by simp)

theorem sortByY_eq_of_distinct (ps : List PointQ)
    (hd : ps.Pairwise (fun a b => a.y ≠ b.y)) :
    sortByY ps.reverse = sortByY ps := by
  haveI : IsAntisymm PointQ (fun a b => a.y < b.y) :=
    ⟨fun a b h1 h2 => absurd (lt_trans h1 h2) (lt_irrefl _)⟩
  have hperm1 : (sortByY ps.reverse).Perm ps :=
    (sortByY_perm _).trans (List.reverse_perm ps)
  have hperm2 : (sortByY ps).Perm ps := sortByY_perm ps
  have hd1 : (sortByY ps.reverse).Pairwise (fun a b => a.y ≠ b.y) :=
    (hperm1.pairwise_iff (fun h => Ne.symm h)).mpr hd
  have hd2 : (sortByY ps).Pairwise (fun a b => a.y ≠ b.y) :=
    (hperm2.pairwise_iff (fun h => Ne.symm h)).mpr hd
  have hs1 : (sortByY ps.reverse).Pairwise (fun a b => a.y < b.y) :=
    ((sortByY_pairwise ps.reverse).and hd1).imp
      (fun hab => lt_of_le_of_ne hab.1 hab.2)
  have hs2 : (sortByY ps).Pairwise (fun a b => a.y < b.y) :=
    ((sortByY_pairwise ps).and hd2).imp
      (fun hab => lt_of_le_of_ne hab.1 hab.2)
  exact List.eq_of_perm_of_sorted (hperm1.trans hperm2.symm) hs1 hs2

theorem walkPairs_z_le (station w : ℚ) (l : List PointQ) :
    ∀ q ∈ walkPairs station w l, q.z ≤ w := by
  induction l with
  | nil => intro q hq; simp [walkPairs] at hq
  | cons p1 rest ih =>
    cases rest with
    | nil =>
      intro q hq
      by_cases h : p1.z ≤ w
      · simp [walkPairs, h] at hq
        exact hq ▸ h
      · simp [walkPairs, h] at hq
    | cons p2 rest2 =>
      intro q hq
      rw [walkPairs, List.mem_append] at hq
      rcases hq with hseg | htail
      · rw [submergedSegment, List.mem_append] at hseg
        rcases hseg with h1 | h2
        · by_cases h : p1.z ≤ w
          · simp [h] at h1
            exact h1 ▸ h
          · simp [h] at h1
        · by_cases hc : crossesWaterline w p1 p2
          · simp [hc] at h2
            rw [h2, interPoint]
          · simp [hc] at h2
      · exact ih q htail

theorem walkPairs_mem_of_below (station w : ℚ) (l : List PointQ) :
    ∀ p ∈ l, p.z ≤ w → p ∈ walkPairs station w l := by
  induction l with
  | nil => intro p hp; simp at hp
  | cons p1 rest ih =>
    cases rest with
    | nil =>
      intro p hp hz
      rcases List.mem_singleton.mp hp with rfl
      simp [walkPairs, hz]
    | cons p2 rest2 =>
      intro p hp hz
      rw [walkPairs, List.mem_append]
      rcases List.mem_cons.mp hp with rfl | hp2
      · exact Or.inl (by simp [submergedSegment, hz])
      · exact Or.inr (ih p hp2 hz)

theorem walkPairs_crossing_mem (station w : ℚ) (l : List PointQ) :
    ∀ p1 p2, (p1, p2) ∈ l.zip l.tail → crossesWaterline w p1 p2 →
      interPoint station w p1 p2 ∈ walkPairs station w l := by
  induction l with
  | nil => intro p1 p2 hmem; simp at hmem
  | cons q1 rest ih =>
    cases rest with
    | nil => intro p1 p2 hmem; simp at hmem
    | cons q2 rest2 =>
      intro p1 p2 hmem hc
      have hzip : (q1 :: q2 :: rest2).zip (q1 :: q2 :: rest2).tail =
          (q1, q2) :: (q2 :: rest2).zip (q2 :: rest2).tail := by
        simp [List.zip]
      rw [hzip, List.mem_cons] at hmem
      rw [walkPairs, List.mem_append]
      rcases hmem with heq | hmem2
      · obtain ⟨rfl, rfl⟩ := Prod.mk.injEq .. ▸ Prod.ext_iff.mp heq
        exact Or.inl (by simp [submergedSegment, hc])
      · exact Or.inr (ih p1 p2 hmem2 hc)

theorem interPoint_y_between (station w : ℚ) (p1 p2 : PointQ)
    (hc : crossesWaterline w p1 p2) :
    min p1.y p2.y ≤ (interPoint station w p1 p2).y ∧
      (interPoint station w p1 p2).y ≤ max p1.y p2.y := by
  have ht : 0 ≤ (w - p1.z) / (p2.z - p1.z) ∧
      (w - p1.z) / (p2.z - p1.z) ≤ 1 := by
    rcases hc with ⟨h1, h2⟩ | ⟨h1, h2⟩
    · have hd : 0 < p2.z - p1.z := by linarith
      constructor
      · exact div_nonneg (by linarith) (le_of_lt hd)
      · rw [div_le_one hd]; linarith
    · have hd : 0 < p1.z - p2.z := by linarith
      have heq : (w - p1.z) / (p2.z - p1.z) =
          (p1.z - w) / (p1.z - p2.z) := by
        rw [div_eq_div_iff (by linarith) (by linarith)]
        ring
      rw [heq]
      constructor
      · exact div_nonneg (by linarith) (le_of_lt hd)
      · rw [div_le_one hd]; linarith
  obtain ⟨ht0, ht1⟩ := ht
  set t := (w - p1.z) / (p2.z - p1.z) with htdef
  have hy : (interPoint station w p1 p2).y = p1.y + t * (p2.y - p1.y) := rfl
  rcases le_total p1.y p2.y with hle | hle
  · rw [min_eq_left hle, max_eq_right hle, hy]
    constructor
    · nlinarith
    · nlinarith
  · rw [min_eq_right hle, max_eq_left hle, hy]
    constructor
    · nlinarith
    · nlinarith

/-- C7.  For every profile and waterline height `w`, the waterline-clipping
walk of `_get_submerged_polygon` returns only points at or below `w`; every
profile point at or below `w` appears in the result; and for every
consecutive edge of the walked (y-sorted) point list that strictly crosses
the waterline, the linearly interpolated intersection — at height exactly
`w`, transversely between the edge's endpoints — is inserted into the
result.  (The profile is required non-empty, matching the domain on which
the source operation is defined.) -/
theorem points_below_clipping (station w : ℚ) (ps : List PointQ)
    (hne : ps ≠ []) :
    (∀ q ∈ getSubmergedPolygon station w ps, q.z ≤ w) ∧
      (∀ p ∈ ps, p.z ≤ w → p ∈ getSubmergedPolygon station w ps) ∧
      (∀ p1 p2, (p1, p2) ∈ (sortByY ps).zip (sortByY ps).tail →
        crossesWaterline w p1 p2 →
          interPoint station w p1 p2 ∈ getSubmergedPolygon station w ps ∧
            (interPoint station w p1 p2).z = w ∧
            min p1.y p2.y ≤ (interPoint station w p1 p2).y ∧
            (interPoint station w p1 p2).y ≤ max p1.y p2.y) := by
  refine ⟨walkPairs_z_le station w (sortByY ps), ?_, ?_⟩
  · intro p hp hz
    exact walkPairs_mem_of_below station w (sortByY ps) p
      ((sortByY_perm ps).mem_iff.mpr hp) hz
  · intro p1 p2 hmem hc
    obtain ⟨hb1, hb2⟩ := interPoint_y_between station w p1 p2 hc
    exact ⟨walkPairs_crossing_mem station w (sortByY ps) p1 p2 hmem hc,
      rfl, hb1, hb2⟩

/-- Closed witness for `points_below_clipping`, on the profile of
`test_get_points_below_waterline_with_intersection` (station 1, waterline
1/2, points at heights 0, 3/10, 4/5, 3/10): the fully submerged point
`(1, 0, 0)` appears in the clipped result. -/
theorem points_below_clipping_witness :
    (⟨1, 0, 0, none⟩ : PointQ) ∈
      getSubmergedPolygon 1 (1/2)
        [⟨1, 0, 0, none⟩, ⟨1, 1/2, 3/10, none⟩,
          ⟨1, 0, 4/5, none⟩, ⟨1, -1/2, 3/10, none⟩] := by
  exact (points_below_clipping 1 (1/2)
      [⟨1, 0, 0, none⟩, ⟨1, 1/2, 3/10, none⟩,
        ⟨1, 0, 4/5, none⟩, ⟨1, -1/2, 3/10, none⟩]
      (by simp)).2.1 ⟨1, 0, 0, none⟩ (List.mem_cons_self _ _) (by norm_num)

theorem ratAbs_nonneg (q : ℚ) : 0 ≤ ratAbs q := by
  unfold ratAbs
  rcases lt_or_le q 0 with h | h
  · rw [if_pos h]; linarith
  · rw [if_neg (not_lt.mpr h)]; exact h

theorem ratAbs_eq_abs (q : ℚ) : ratAbs q = |q| := by
  unfold ratAbs
  rcases lt_or_le q 0 with h | h
  · rw [if_pos h, abs_of_neg h]
  · rw [if_neg (not_lt.mpr h), abs_of_nonneg h]

theorem length_insertY (p : PointQ) (l : List PointQ) :
    (insertY p l).length = l.length + 1 := by
  induction l with
  | nil => rfl
  | cons q qs ih =>
    by_cases h : p.y < q.y
    · simp [insertY, h]
    · simp [insertY, h, ih]

theorem length_sortByY_aux (ps acc : List PointQ) :
    (ps.foldl (fun acc p => insertY p acc) acc).length =
      acc.length + ps.length := by
  induction ps generalizing acc with
  | nil => simp
  | cons p ps ih =>
    rw [List.foldl_cons, ih (insertY p acc), length_insertY]
    simp
    omega

theorem length_sortByY (ps : List PointQ) :
    (sortByY ps).length = ps.length := by
  simpa [sortByY] using length_sortByY_aux ps []

theorem walkPairs_length_le_two (station w : ℚ) (l : List PointQ)
    (hl : l.length ≤ 2) : (walkPairs station w l).length ≤ 2 := by
  match l with
  | [] => simp [walkPairs]
  | [p] =>
    by_cases h : p.z ≤ w <;> simp [walkPairs, h]
  | [p, q] =>
    by_cases hc : crossesWaterline w p q
    · rcases hc with ⟨h1, h2⟩ | ⟨h1, h2⟩
      · have hp : p.z ≤ w := le_of_lt h1
        have hq : ¬ q.z ≤ w := not_le.mpr h2
        simp [walkPairs, submergedSegment, hp, hq, crossesWaterline, h1, h2]
      · have hp : ¬ p.z ≤ w := not_le.mpr h2
        have hq : q.z ≤ w := le_of_lt h1
        simp [walkPairs, submergedSegment, hp, hq, crossesWaterline, h1, h2]
    · by_cases hp : p.z ≤ w <;> by_cases hq : q.z ≤ w <;>
        simp [walkPairs, submergedSegment, hp, hq, hc]
  | p :: q :: r :: t => simp at hl

/-- C8, amended.  For every non-empty profile the computed cross-sectional
area is non-negative, and non-empty profiles with fewer than 3 points
yield area 0; the spec-modelled wetted perimeter returns 0 on every
profile with fewer than 3 points.  The area is unchanged when the point
list is supplied in reversed order provided no two points share a
transverse coordinate — the clipping sorts stably by the transverse
coordinate, so reversing the input can reorder points with equal
transverse coordinates and change the polygon (see the counterexample),
but with distinct transverse coordinates the sorted traversal, hence the
area, is identical.  The empty profile is excluded from the area clauses:
there the source's `_get_submerged_polygon` raises IndexError at
`sorted_points[-1]` (profile.py line 273) instead of returning a value,
so the area computation fails rather than returning zero. -/
theorem area_properties (station w : ℚ) (ps : List PointQ) :
    (ps ≠ [] → 0 ≤ calculate_area_below_waterline station w ps) ∧
      (ps ≠ [] → ps.length < 3 →
        calculate_area_below_waterline station w ps = 0) ∧
      (ps ≠ [] → ps.Pairwise (fun a b => a.y ≠ b.y) →
        calculate_area_below_waterline station w ps.reverse =
          calculate_area_below_waterline station w ps) ∧
      (∀ sqrtQ : ℚ → ℚ, ps.length < 3 →
        wetted_perimeter sqrtQ station w ps = 0) := by
  refine ⟨?_, ?_, ?_, ?_⟩
  · intro hne
    unfold calculate_area_below_waterline
    by_cases h : (getSubmergedPolygon station w ps).length < 3
    · rw [if_pos h]
    · rw [if_neg h]
      have := ratAbs_nonneg (shoelaceSum (getSubmergedPolygon station w ps))
      linarith
  · intro hne hlen
    unfold calculate_area_below_waterline
    rw [if_pos]
    have hs : (sortByY ps).length ≤ 2 := by
      rw [length_sortByY]; omega
    have := walkPairs_length_le_two station w (sortByY ps) hs
    unfold getSubmergedPolygon
    omega
  · intro hne hd
    unfold calculate_area_below_waterline getSubmergedPolygon
    rw [sortByY_eq_of_distinct ps hd]
  · intro sqrtQ hlen
    unfold wetted_perimeter
    rw [if_pos hlen]

/-- Closed witness for `area_properties`: a non-empty two-point profile
with distinct transverse coordinates has area 0, is reversal-invariant,
and has wetted perimeter 0. -/
theorem area_properties_witness :
    calculate_area_below_waterline 1 100
        [⟨1, 0, 0, none⟩, ⟨1, 1, 1, none⟩] = 0 ∧
      calculate_area_below_waterline 1 100
          ([⟨1, 0, 0, none⟩, ⟨1, 1, 1, none⟩] : List PointQ).reverse =
        calculate_area_below_waterline 1 100
          [⟨1, 0, 0, none⟩, ⟨1, 1, 1, none⟩] ∧
      wetted_perimeter (fun q => q) 1 100
        [⟨1, 0, 0, none⟩, ⟨1, 1, 1, none⟩] = 0 := by
  obtain ⟨h1, h2, h3, h4⟩ :=
    area_properties 1 100 [⟨1, 0, 0, none⟩, ⟨1, 1, 1, none⟩]
  exact ⟨h2 (List.cons_ne_nil _ _) (by norm_num),
    h3 (List.cons_ne_nil _ _) (by norm_num [List.pairwise_cons]),
    h4 (fun q => q) (by norm_num)⟩

/-- A strictly convex circular traversal in the transverse/vertical plane:
every consecutive edge pair turns in the same (positive) direction.  This
formalizes the claim's "convex profile" side condition. -/
def ConvexCircular (ps : List PointQ) : Prop :=
  ∀ t ∈ (ps.zip (ps.tail ++ ps.take 1)).zip
      ((ps.tail ++ ps.take 1).tail ++ (ps.tail ++ ps.take 1).take 1),
    0 < (t.1.2.y - t.1.1.y) * (t.2.z - t.1.2.z) -
        (t.1.2.z - t.1.1.z) * (t.2.y - t.1.2.y)

/-- C8, counterexample.  A strictly convex pentagon profile, fully
submerged, whose computed area changes from 11 to 4 when the point list is
supplied in reversed order: the y-stable sort orders the two pairs of
points sharing a transverse coordinate differently, producing two different
(self-intersecting) traversals. -/
theorem area_not_reversal_invariant :
    ConvexCircular
        [⟨1, 0, 0, none⟩, ⟨1, 1, -5, none⟩, ⟨1, 2, 3, none⟩,
          ⟨1, 1, 20, none⟩, ⟨1, 0, 10, none⟩] ∧
      calculate_area_below_waterline 1 100
          [⟨1, 0, 0, none⟩, ⟨1, 1, -5, none⟩, ⟨1, 2, 3, none⟩,
            ⟨1, 1, 20, none⟩, ⟨1, 0, 10, none⟩] ≠
        calculate_area_below_waterline 1 100
          ([⟨1, 0, 0, none⟩, ⟨1, 1, -5, none⟩, ⟨1, 2, 3, none⟩,
            ⟨1, 1, 20, none⟩, ⟨1, 0, 10, none⟩] : List PointQ).reverse := by
  constructor
  · intro t ht
    simp only [List.tail, List.take, List.zip, List.zipWith, List.append,
      List.mem_cons, List.not_mem_nil, or_false] at ht
    rcases ht with rfl | rfl | rfl | rfl | rfl <;> norm_num
  · have ha : calculate_area_below_waterline 1 100
        [⟨1, 0, 0, none⟩, ⟨1, 1, -5, none⟩, ⟨1, 2, 3, none⟩,
          ⟨1, 1, 20, none⟩, ⟨1, 0, 10, none⟩] = 11 := by
      norm_num [calculate_area_below_waterline, getSubmergedPolygon,
        sortByY, insertY, walkPairs, submergedSegment, crossesWaterline,
        interPoint, shoelaceSum, rollLeft, rollRight, ratAbs]
    have hb : calculate_area_below_waterline 1 100
        ([⟨1, 0, 0, none⟩, ⟨1, 1, -5, none⟩, ⟨1, 2, 3, none⟩,
          ⟨1, 1, 20, none⟩, ⟨1, 0, 10, none⟩] : List PointQ).reverse = 4 := by
      norm_num [calculate_area_below_waterline, getSubmergedPolygon,
        sortByY, insertY, walkPairs, submergedSegment, crossesWaterline,
        interPoint, shoelaceSum, rollLeft, rollRight, ratAbs,
        List.reverse]
    rw [ha, hb]
    norm_num

end Profile

/-! ## End-closure pyramid volumes (src/hydrostatics/volume.py) -/

namespace Volume

/-- The difference vector between two points, forming the tetrahedron edge
vectors `v1, v2, v3` (src/hydrostatics/volume.py lines 406–408). -/
def subVec (p q : PointQ) : ℚ × ℚ × ℚ := (p.x - q.x, p.y - q.y, p.z - q.z)

/-- Models `np.dot(v1, np.cross(v2, v3))`: the scalar triple product
(src/hydrostatics/volume.py line 411). -/
def tripleProduct (v1 v2 v3 : ℚ × ℚ × ℚ) : ℚ :=
  v1.1 * (v2.2.1 * v3.2.2 - v2.2.2 * v3.2.1) +
    v1.2.1 * (v2.2.2 * v3.1 - v2.1 * v3.2.2) +
    v1.2.2 * (v2.1 * v3.2.1 - v2.2.1 * v3.1)

/-- Models `min(range(len(profile_points)), key=lambda i: abs(profile_points[i].y))`:
the first index of minimal transverse distance from the centerline
(src/hydrostatics/volume.py line 387). -/
def centerlineIdx (pts : List PointQ) : ℕ :=
  (List.range pts.length).foldl
    (fun best i =>
      if Profile.ratAbs (pts.getD i default).y <
          Profile.ratAbs (pts.getD best default).y
      then i else best) 0

/-- Models `_calculate_pyramid_to_single_apex`
(src/hydrostatics/volume.py lines 374–416): fan-triangulate the profile
polygon from its point nearest the centerline (skipping the degenerate
triangles through the hub itself, with cyclic wraparound of the pair
index) and sum tetrahedron volumes `|v1 · (v2 × v3)| / 6` to the apex. -/
def pyramidToSingleApex (pts : List PointQ) (apex : PointQ) : ℚ :=
  if pts.length < 3 then 0
  else
    let c := centerlineIdx pts
    let cp := pts.getD c default
    (List.range pts.length).foldl
      (fun vol i =>
        let ni := (i + 1) % pts.length
        if i = c ∨ ni = c then vol
        else
          vol + Profile.ratAbs
              (tripleProduct (subVec (pts.getD i default) cp)
                (subVec (pts.getD ni default) cp) (subVec apex cp)) / 6)
      0

/-- Models `_calculate_pyramid_multipoint`
(src/hydrostatics/volume.py lines 419–445): average the end points into an
effective apex on the centerline (z-weighted in x when the z sum is
non-zero) and reuse the single-apex decomposition. -/
def pyramidMultipoint (pts : List PointQ) (endPoints : List PointQ) : ℚ :=
  let totalZ := (endPoints.map PointQ.z).foldl (· + ·) 0
  let avgX :=
    if totalZ ≠ 0 then
      (endPoints.map (fun p => p.x * p.z)).foldl (· + ·) 0 / totalZ
    else (endPoints.map PointQ.x).foldl (· + ·) 0 / (endPoints.length : ℚ)
  let avgZ := (endPoints.map PointQ.z).foldl (· + ·) 0 / (endPoints.length : ℚ)
  pyramidToSingleApex pts ⟨avgX, 0, avgZ, none⟩

/-- Models `calculate_end_pyramid_volume` on its zero-heel path
(src/hydrostatics/volume.py lines 283–371): keep the end profile's
submerged points, require at least 3 of them and at least one submerged
end point, sort the profile points by the transverse coordinate, close
with the single apex (or the averaged multi-point apex), and clamp the
result at 0. -/
def calculate_end_pyramid_volume (endProfile : List PointQ)
    (endPoints : List PointQ) (w : ℚ) : ℚ :=
  if endPoints = [] then 0
  else
    let submerged := endProfile.filter (fun p => decide (p.z ≤ w))
    if submerged.length < 3 then 0
    else
      match endPoints.filter (fun p => decide (p.z ≤ w)) with
      | [] => 0
      | [apex] =>
        max 0 (pyramidToSingleApex (Profile.sortByY submerged) apex)
      | subEnd =>
        max 0 (pyramidMultipoint (Profile.sortByY submerged) subEnd)

end Volume

namespace Volume

/-- C4.  For a box-like hull end — a fully submerged rectangular end
profile (half-beam `b`, bottom `z1`, top `z2` at station `x0`) tapering to
a single apex point on the centerline — the pyramid-closure volume computed
by fan-triangulating the profile polygon from its point nearest the
centerline and summing tetrahedron volumes `|triple product| / 6` to the
apex equals the analytic pyramid formula
`(1/3) × base_area × height` exactly (the embedding computes over `ℚ`, so
"within numerical tolerance" is sharpened to equality). -/
theorem pyramid_box_volume (x0 b z1 z2 xa za w : ℚ)
    (hb : 0 < b) (hz : z1 < z2) (hw2 : z2 ≤ w) (hwa : za ≤ w) :
    calculate_end_pyramid_volume
        [⟨x0, -b, z1, none⟩, ⟨x0, -b, z2, none⟩,
          ⟨x0, b, z1, none⟩, ⟨x0, b, z2, none⟩]
        [⟨xa, 0, za, none⟩] w =
      1 / 3 * (2 * b * (z2 - z1)) * Profile.ratAbs (xa - x0) := by
  have hz1w : z1 ≤ w := le_trans (le_of_lt hz) hw2
  have hnn : ¬ (-b < -b) := lt_irrefl _
  have hbb : ¬ (b < -b) := by linarith
  have hbb2 : ¬ (b < b) := lt_irrefl _
  have hrb : Profile.ratAbs b = b := by
    unfold Profile.ratAbs
    rw [if_neg (not_lt.mpr (le_of_lt hb))]
  have hrnb : Profile.ratAbs (-b) = b := by
    unfold Profile.ratAbs
    rw [if_pos (by linarith)]
    ring
  unfold calculate_end_pyramid_volume
  simp only [List.filter, decide_eq_true_eq, hz1w, hw2, hwa, decide_True,
    if_true]
  rw [if_neg (List.cons_ne_nil _ _), if_neg (by norm_num)]
  have hsort : Profile.sortByY
      [(⟨x0, -b, z1, none⟩ : PointQ), ⟨x0, -b, z2, none⟩,
        ⟨x0, b, z1, none⟩, ⟨x0, b, z2, none⟩] =
      [⟨x0, -b, z1, none⟩, ⟨x0, -b, z2, none⟩,
        ⟨x0, b, z1, none⟩, ⟨x0, b, z2, none⟩] := by
    simp [Profile.sortByY, Profile.insertY, hnn, hbb, hbb2]
  rw [hsort]
  have hc : centerlineIdx
      [(⟨x0, -b, z1, none⟩ : PointQ), ⟨x0, -b, z2, none⟩,
        ⟨x0, b, z1, none⟩, ⟨x0, b, z2, none⟩] = 0 := by
    norm_num [centerlineIdx, List.range_succ, List.getD, hrb, hrnb]
  norm_num [pyramidToSingleApex, hc, List.range_succ, List.getD,
    tripleProduct, subVec]
  rw [Profile.ratAbs_eq_abs, Profile.ratAbs_eq_abs, Profile.ratAbs_eq_abs,
    abs_neg]
  have hdz : (0 : ℚ) ≤ z2 - z1 := by linarith
  have hb2 : (0 : ℚ) ≤ b + b := by linarith
  have habs : (0 : ℚ) ≤ |xa - x0| := abs_nonneg _
  have hA : |(z2 - z1) * ((b + b) * (xa - x0))| =
      (z2 - z1) * ((b + b) * |xa - x0|) := by
    rw [abs_mul, abs_mul, abs_of_nonneg hdz, abs_of_nonneg hb2]
  have hB : |(b + b) * ((z2 - z1) * (xa - x0))| =
      (b + b) * ((z2 - z1) * |xa - x0|) := by
    rw [abs_mul, abs_mul, abs_of_nonneg hb2, abs_of_nonneg hdz]
  rw [hA, hB]
  have hX : (0 : ℚ) ≤ (z2 - z1) * ((b + b) * |xa - x0|) :=
    mul_nonneg hdz (mul_nonneg hb2 habs)
  have hY : (0 : ℚ) ≤ (b + b) * ((z2 - z1) * |xa - x0|) :=
    mul_nonneg hb2 (mul_nonneg hdz habs)
  rw [max_eq_right (by linarith)]
  ring

/-- Closed witness for `pyramid_box_volume`: a unit-square end profile at
station 0 closing to an apex 3 units away has pyramid volume
`(1/3) × 2 × 3 = 2`. -/
theorem pyramid_box_volume_witness :
    calculate_end_pyramid_volume
        [⟨0, -1, 0, none⟩, ⟨0, -1, 1, none⟩, ⟨0, 1, 0, none⟩,
          ⟨0, 1, 1, none⟩]
        [⟨3, 0, 0, none⟩] 2 = 2 := by
  have h := pyramid_box_volume 0 1 0 1 3 0 2 (by norm_num) (by norm_num)
    (by norm_num) (by norm_num)
  rw [h]
  norm_num [Profile.ratAbs]

end Volume

/-! ## Curve rotation (src/geometry/spline.py, src/geometry/point.py) -/

namespace Spline3D

/-- One control point under `Spline3D.apply_rotation_on_x_axis`
(src/geometry/spline.py lines 25–47): translate to the origin, rotate in
the transverse/vertical plane by the angle whose cosine/sine values are
`ca`/`sa`, translate back; the new `Point3D` is created without a level
tag. -/
def rotatePointAboutOrigin (origin : PointQ) (ca sa : ℚ) (p : PointQ) :
    PointQ :=
  let y := p.y - origin.y
  let z := p.z - origin.z
  ⟨p.x, y * ca - z * sa + origin.y, y * sa + z * ca + origin.z, none⟩

/-- Models `Spline3D.apply_rotation_on_x_axis` on the control-point list:
a new list of rotated points is built; the original list is not
modified (the embedding is a pure function). -/
def apply_rotation_on_x_axis (origin : PointQ) (ca sa : ℚ)
    (ps : List PointQ) : List PointQ :=
  ps.map (rotatePointAboutOrigin origin ca sa)

theorem rotatePoint_round_trip (origin : PointQ) (ca sa : ℚ) (p : PointQ)
    (h : ca ^ 2 + sa ^ 2 = 1) :
    (rotatePointAboutOrigin origin ca (-sa)
        (rotatePointAboutOrigin origin ca sa p)).coords = p.coords := by
  unfold rotatePointAboutOrigin PointQ.coords
  refine Prod.ext rfl (Prod.ext ?_ ?_) <;> simp only
  · linear_combination (p.y - origin.y) * h
  · linear_combination (p.z - origin.z) * h

/-- C9.  Rotating a curve's control points about the longitudinal axis by
`θ` and then by `−θ` returns the original control points' coordinates
exactly: the cosine/sine pair `(ca, sa)` of a real angle satisfies
`ca² + sa² = 1`, and the rotation by `−θ` uses `(ca, −sa)` (the parity of
cosine and sine).  Each rotation builds a new point list from the old one,
so the original is untouched — modelled here by the rotation being a pure
function of the input list. -/
theorem rotation_round_trip (origin : PointQ) (ca sa : ℚ)
    (ps : List PointQ) (h : ca ^ 2 + sa ^ 2 = 1) :
    (apply_rotation_on_x_axis origin ca (-sa)
        (apply_rotation_on_x_axis origin ca sa ps)).map PointQ.coords =
      ps.map PointQ.coords := by
  unfold apply_rotation_on_x_axis
  rw [List.map_map, List.map_map]
  induction ps with
  | nil => rfl
  | cons p rest ih =>
    rw [List.map_cons, List.map_cons, ih]
    exact congrArg (· :: rest.map PointQ.coords)
      (rotatePoint_round_trip origin ca sa p h)

/-- Closed witness for `rotation_round_trip`: the rational rotation
`(ca, sa) = (3/5, 4/5)` applied to a concrete two-point curve about origin
`(0, 1, 2)` and undone returns the original coordinates. -/
theorem rotation_round_trip_witness :
    (apply_rotation_on_x_axis ⟨0, 1, 2, none⟩ (3/5) (-(4/5))
        (apply_rotation_on_x_axis ⟨0, 1, 2, none⟩ (3/5) (4/5)
          [⟨0, 0, 0, none⟩, ⟨1, 2, 3, some "keel"⟩])).map PointQ.coords =
      ([⟨0, 0, 0, none⟩, ⟨1, 2, 3, some "keel"⟩] :
        List PointQ).map PointQ.coords :=
  rotation_round_trip ⟨0, 1, 2, none⟩ (3/5) (4/5)
    [⟨0, 0, 0, none⟩, ⟨1, 2, 3, some "keel"⟩] (by norm_num)

end Spline3D

/-- C10.  For every point and heel angle (with cosine/sine values
`ca`/`sa`), `Point3D.rotate_x` returns a new point whose longitudinal
coordinate and level tag equal the original's exactly; the original point
is not modified (the embedding is a pure function of `p`). -/
theorem rotate_x_preserves_x_and_level (p : PointQ) (ca sa : ℚ) :
    (p.rotate_x ca sa).x = p.x ∧ (p.rotate_x ca sa).level = p.level :=
  ⟨rfl, rfl⟩

/-! ## Equilibrium waterline solver (§4.4 of the specification) -/

/-- The two failure modes of the equilibrium solve (§4.4, §7). -/
inductive WaterlineError where
  | nonconvergent : WaterlineError
  | outOfBounds : WaterlineError
  deriving Repr, DecidableEq

/-- Modelled from the spec: `Hull._calculate_waterline` — the `Hull` class
imported by `src/analysis/stability.py` and `src/routes/hull.py` and
exercised by `test/unit/test_hull.py` is not among the sources.  Per §4.4:
at each candidate waterline the trial displaced mass is computed (here the
abstract `massAt`); convergence is an absolute mass error within `tol`;
otherwise a proportional correction
`new waterline = old + (mass error / target mass) × old waterline` is
applied; the solver bounds the iteration count (the fuel argument, raising
`WaterlineNonconvergent` when exhausted) and the waterline range (raising
`WaterlineOutOfBounds` when the search leaves the hull's vertical extent
`[0, depth]`). -/
def solveWaterline (massAt : ℚ → ℚ) (depth target tol : ℚ) :
    ℕ → ℚ → Except WaterlineError ℚ
  | 0, _ => .error .nonconvergent
  | fuel + 1, wl =>
    if Profile.ratAbs (target - massAt wl) ≤ tol then .ok wl
    else
      let wl2 := wl + (target - massAt wl) / target * wl
      if wl2 < 0 ∨ depth < wl2 then .error .outOfBounds
      else solveWaterline massAt depth target tol fuel wl2

/-- C1.  If the requested total mass exceeds the hull's maximum possible
displacement (full-depth volume × water density, an upper bound `maxDisp`
on every trial displaced mass) by more than the convergence tolerance,
then for every iteration bound and starting guess the equilibrium solve
raises `WaterlineOutOfBounds` or `WaterlineNonconvergent`
(`WaterlineCalculationError`) instead of returning a waterline: the
convergence test can never succeed, so the search either leaves the hull's
vertical extent or exhausts its iterations. -/
theorem solveWaterline_capacity_exceeded (massAt : ℚ → ℚ)
    (depth target tol maxDisp : ℚ)
    (hcap : ∀ wl, massAt wl ≤ maxDisp)
    (hgt : maxDisp + tol < target) :
    ∀ (fuel : ℕ) (wl : ℚ),
      ∃ e, solveWaterline massAt depth target tol fuel wl =
        Except.error e := by
  intro fuel
  induction fuel with
  | zero => exact fun wl => ⟨.nonconvergent, rfl⟩
  | succ n ih =>
    intro wl
    have hm : massAt wl ≤ maxDisp := hcap wl
    have habs : ¬ Profile.ratAbs (target - massAt wl) ≤ tol := by
      rw [Profile.ratAbs_eq_abs]
      intro hle
      have hx := le_abs_self (target - massAt wl)
      linarith
    by_cases hob : wl + (target - massAt wl) / target * wl < 0 ∨
        depth < wl + (target - massAt wl) / target * wl
    · exact ⟨.outOfBounds, by rw [solveWaterline, if_neg habs, if_pos hob]⟩
    · obtain ⟨e, he⟩ := ih (wl + (target - massAt wl) / target * wl)
      exact ⟨e, by rw [solveWaterline, if_neg habs, if_neg hob]; exact he⟩

/-- Closed witness for `solveWaterline_capacity_exceeded`, the §8 concrete
scenario: a hull whose maximum possible displacement is 50 kg cannot
support a 500 kg target payload — the solve errors rather than returning
a waterline. -/
theorem solveWaterline_capacity_exceeded_witness :
    ∃ e, solveWaterline (fun _ => 50) 1 500 1 20 (1/3) =
      Except.error e :=
  solveWaterline_capacity_exceeded (fun _ => 50) 1 500 1 50
    (fun _ => le_refl 50) (by norm_num) 20 (1/3)
